import Mathlib

/-!
Verification development for the minesweeper inference engine
(`minesweeper.py`: classes `Sentence` and `MinesweeperAI`).

Cells are integer pairs (Python tuples of ints), sentence counts are
integers (Python `int` may go negative), cell sets are finite sets.
Python iterates its hash sets in an unspecified order; every place the
source iterates a set, the result is order independent (set removals and
count decrements commute), so folding over a canonical enumeration of
the set (`cellSort`) is a faithful rendering.  The `knowledge` container
is a Python list and is modelled as a `List` with positional updates.
-/

abbrev Cell := Int × Int

/-- One logical constraint of `minesweeper.py`: `count` of the cells in
`cells` are mines (class `Sentence`). -/
structure Sentence where
  cells : Finset Cell
  count : Int
deriving DecidableEq

/-- `Sentence.known_mines`: the cells are all mines when the count equals
the cardinality and is non-zero (lines 113-120). -/
def Sentence.known_mines (s : Sentence) : Finset Cell :=
  if (s.cells.card : Int) = s.count ∧ s.count ≠ 0 then s.cells else ∅

/-- `Sentence.known_safes`: all cells are safe when the count is zero
(lines 122-129). -/
def Sentence.known_safes (s : Sentence) : Finset Cell :=
  if s.count = 0 then s.cells else ∅

/-- `Sentence.mark_mine` (lines 131-138): remove the cell and decrement
the count when the cell is present, otherwise do nothing. -/
def Sentence.mark_mine (s : Sentence) (c : Cell) : Sentence :=
  if c ∈ s.cells then ⟨s.cells.erase c, s.count - 1⟩ else s

/-- `Sentence.mark_safe` (lines 140-146): remove the cell when present,
count unchanged. -/
def Sentence.mark_safe (s : Sentence) (c : Cell) : Sentence :=
  if c ∈ s.cells then ⟨s.cells.erase c, s.count⟩ else s

/-- State of class `MinesweeperAI` (the knowledge base): board bounds,
step counter, the three derived cell sets and the list of sentences. -/
structure MinesweeperAI where
  height : Nat
  width : Nat
  step : Nat
  moves_made : Finset Cell
  mines : Finset Cell
  safes : Finset Cell
  knowledge : List Sentence
deriving DecidableEq

/-- `MinesweeperAI.__init__` (state fields only; the constructor's
directory housekeeping is filesystem side effect outside the model). -/
def initAI (height width : Nat) : MinesweeperAI :=
  ⟨height, width, 0, ∅, ∅, ∅, []⟩

/-- `MinesweeperAI.mark_mine` (lines 191-198): add the cell to `mines`
and mark it in every sentence. -/
def MinesweeperAI.mark_mine (ai : MinesweeperAI) (c : Cell) : MinesweeperAI :=
  { ai with mines := insert c ai.mines,
            knowledge := ai.knowledge.map (fun s => s.mark_mine c) }

/-- `MinesweeperAI.mark_safe` (lines 200-207): add the cell to `safes`
and mark it in every sentence. -/
def MinesweeperAI.mark_safe (ai : MinesweeperAI) (c : Cell) : MinesweeperAI :=
  { ai with safes := insert c ai.safes,
            knowledge := ai.knowledge.map (fun s => s.mark_safe c) }

/-- In-bounds test `0 <= i < height and 0 <= j < width` (line 357). -/
def MinesweeperAI.inB (ai : MinesweeperAI) (p : Cell) : Bool :=
  decide (0 ≤ p.1) && decide (p.1 < (ai.height : Int)) &&
    decide (0 ≤ p.2) && decide (p.2 < (ai.width : Int))

/-- The nine coordinates scanned by the neighbour loop of
`add_knowledge` (lines 349-350), in Python's iteration order; the centre
cell itself is skipped inside the loop body, as in the source. -/
def nbrCoords (c : Cell) : List Cell :=
  [(c.1 - 1, c.2 - 1), (c.1 - 1, c.2), (c.1 - 1, c.2 + 1),
   (c.1, c.2 - 1), (c.1, c.2), (c.1, c.2 + 1),
   (c.1 + 1, c.2 - 1), (c.1 + 1, c.2), (c.1 + 1, c.2 + 1)]

/-- Body of the neighbour loop of `add_knowledge` (lines 349-358): skip
the clue cell and known safes, decrement the count for known mines
(before any bounds check, as in the source), and collect the remaining
in-bounds coordinates. -/
def clueStep (ai : MinesweeperAI) (cell : Cell) (acc : Finset Cell × Int)
    (p : Cell) : Finset Cell × Int :=
  if p = cell ∨ p ∈ ai.safes then acc
  else if p ∈ ai.mines then (acc.1, acc.2 - 1)
  else if ai.inB p then (insert p acc.1, acc.2) else acc

/-- Steps 1-3 of `add_knowledge` (lines 345-360): record the move, mark
the clue cell safe everywhere, scan the neighbours and append the new
sentence. -/
def MinesweeperAI.insertPhase (ai : MinesweeperAI) (cell : Cell) (count : Int) :
    MinesweeperAI :=
  let ai1 := { ai with moves_made := insert cell ai.moves_made }
  let ai2 := ai1.mark_safe cell
  let scan := (nbrCoords cell).foldl (clueStep ai2 cell) (∅, count)
  { ai2 with knowledge := ai2.knowledge ++ [⟨scan.1, scan.2⟩] }

/-- Lexicographic order on cells, used to enumerate a Python set in a
definite order; every fold the source runs over a set is order
independent, so any enumeration order is faithful. -/
def cellLe (a b : Cell) : Prop :=
  a.1 < b.1 ∨ (a.1 = b.1 ∧ a.2 ≤ b.2)

instance : DecidableRel cellLe := fun a b => by
  unfold cellLe; infer_instance

instance : IsTrans Cell cellLe where
  trans a b c hab hbc := by
    rcases hab with h | ⟨h1, h2⟩ <;> rcases hbc with h' | ⟨h1', h2'⟩ <;>
      simp only [cellLe] <;> omega

instance : IsAntisymm Cell cellLe where
  antisymm a b hab hba := by
    rcases hab with h | ⟨h1, h2⟩ <;> rcases hba with h' | ⟨h1', h2'⟩ <;>
      [skip; skip; skip; skip] <;>
      first
        | omega
        | exact Prod.ext h1 (le_antisymm h2 h2')

instance : IsTotal Cell cellLe where
  total a b := by
    simp only [cellLe]; omega

/-- Ordered insertion of a cell into a list, the building block of the
canonical enumeration of a set of cells. -/
def insCell (c : Cell) (l : List Cell) : List Cell :=
  l.orderedInsert cellLe c

instance : LeftCommutative insCell := by
  constructor
  intro a b l
  have htot : ∀ x y : Cell, cellLe x y ∨ cellLe y x := IsTotal.total
  have hanti : ∀ x y : Cell, cellLe x y → cellLe y x → x = y := IsAntisymm.antisymm
  have htr : ∀ x y z : Cell, cellLe x y → cellLe y z → cellLe x z := IsTrans.trans
  induction l with
  | nil =>
      simp only [insCell, List.orderedInsert]
      by_cases hab : cellLe a b <;> by_cases hba : cellLe b a
      · rw [hanti a b hab hba]
      · simp [hab, hba]
      · simp [hab, hba]
      · rcases htot a b with h | h <;> [exact absurd h hab; exact absurd h hba]
  | cons x xs ih =>
      by_cases hax : cellLe a x <;> by_cases hbx : cellLe b x
      · simp only [insCell, List.orderedInsert, if_pos hax, if_pos hbx]
        by_cases hab : cellLe a b <;> by_cases hba : cellLe b a
        · rw [hanti a b hab hba]
        · simp [List.orderedInsert, hab, hba, hax, hbx]
        · simp [List.orderedInsert, hab, hba, hax, hbx]
        · rcases htot a b with h | h <;>
            [exact absurd h hab; exact absurd h hba]
      · have hba : cellLe b a → False := fun h => hbx (htr b a x h hax)
        have hab : cellLe a b := by
          rcases htot a b with h | h
          · exact h
          · exact absurd h hba
        simp only [insCell, List.orderedInsert, if_pos hax, if_neg hbx,
          if_pos hab, if_neg hba]
      · have hab : cellLe a b → False := fun h => hax (htr a b x h hbx)
        have hba : cellLe b a := by
          rcases htot a b with h | h
          · exact absurd h hab
          · exact h
        simp only [insCell, List.orderedInsert, if_pos hbx, if_neg hax,
          if_pos hba, if_neg hab]
      · simp only [insCell, List.orderedInsert, if_neg hax, if_neg hbx]
        simp only [insCell, List.orderedInsert] at ih
        rw [ih]

/-- Enumeration of a finite set of cells in lexicographic order, by
ordered insertion over the underlying multiset. -/
def cellSort (s : Finset Cell) : List Cell :=
  Multiset.foldr insCell [] s.val

/-- Union of `known_safes()` over the knowledge list (lines 362-366). -/
def collectSafes (ks : List Sentence) : Finset Cell :=
  ks.foldl (fun acc s => acc ∪ s.known_safes) ∅

/-- Union of `known_mines()` over the knowledge list (lines 362-367). -/
def collectMines (ks : List Sentence) : Finset Cell :=
  ks.foldl (fun acc s => acc ∪ s.known_mines) ∅

/-- Step 4 of `add_knowledge` (lines 362-374): snapshot the decided cells
of every sentence, then mark each collected safe and then each collected
mine at knowledge-base level. -/
def MinesweeperAI.extractPhase (ai : MinesweeperAI) : MinesweeperAI :=
  let S := collectSafes ai.knowledge
  let M := collectMines ai.knowledge
  let ai1 := (cellSort S).foldl MinesweeperAI.mark_safe ai
  (cellSort M).foldl MinesweeperAI.mark_mine ai1

/-- One inner-loop step of the elimination sweep (lines 376-382): the
pair of sentences at positions `i` and `j`; equal cell sets are skipped,
and when the first is a subset of the second the second is replaced by
the set difference with the count difference. -/
def elimStep (ks : List Sentence) (i j : Nat) : List Sentence :=
  match ks.get? i, ks.get? j with
  | some s1, some s2 =>
      if s1.cells = s2.cells then ks
      else if s1.cells ⊆ s2.cells then
        ks.set j ⟨s2.cells \ s1.cells, s2.count - s1.count⟩
      else ks
  | _, _ => ks

/-- Step 5 of `add_knowledge` (lines 376-382): one full nested sweep over
all ordered position pairs, mutating the list in place as it goes.  The
list's length never changes during the sweep, so ranging over the
original length matches the Python iteration. -/
def subsetElimPass (ks : List Sentence) : List Sentence :=
  (List.range ks.length).foldl
    (fun acc i => (List.range ks.length).foldl (fun acc2 j => elimStep acc2 i j) acc)
    ks

/-- `MinesweeperAI.add_knowledge` (lines 330-382): insertion, one
extraction-and-marking phase, one subset-elimination sweep.  There is no
loop around the last two phases in the source. -/
def MinesweeperAI.add_knowledge (ai : MinesweeperAI) (cell : Cell) (count : Int) :
    MinesweeperAI :=
  let ai1 := ai.insertPhase cell count
  let ai2 := ai1.extractPhase
  { ai2 with knowledge := subsetElimPass ai2.knowledge }

/-- The set `safes - moves_made` used by `mace4_wrapper` (line 452). -/
def MinesweeperAI.safeMoves (ai : MinesweeperAI) : Finset Cell :=
  ai.safes \ ai.moves_made

/-- `MinesweeperAI.mace4_wrapper` (lines 448-457), state change and
returned move.  `random.choice(list(safe_moves))` is modelled by an
injected random index `r` into the enumeration of the set; the prompt
and output files it writes are filesystem effects outside the model. -/
def MinesweeperAI.mace4_wrapper (ai : MinesweeperAI) (r : Nat) :
    MinesweeperAI × Option Cell :=
  let ai1 := { ai with step := ai.step + 1 }
  let sm := ai1.safeMoves
  (ai1, (cellSort sm).get? (r % (cellSort sm).length))

/-- `MinesweeperAI.mace4_move` (lines 459-466): up to 63 draws of a
random in-bounds cell, returning the first one that is neither a made
move nor a known mine; `random.randrange` is modelled by an injected
stream `rng` of draws reduced into bounds.  One loop iteration: -/
def drawCell (ai : MinesweeperAI) (rng : Nat → Nat × Nat) (i : Nat) : Option Cell :=
  let rand : Cell := (((rng i).1 % ai.height : Nat), ((rng i).2 % ai.width : Nat))
  if rand ∉ ai.moves_made ∧ rand ∉ ai.mines then some rand else none

/-- Loop of `mace4_move`: the first acceptable draw wins. -/
def MinesweeperAI.mace4_move (ai : MinesweeperAI) (rng : Nat → Nat × Nat) :
    Option Cell :=
  (List.range 63).foldl
    (fun acc i =>
      match acc with
      | some m => some m
      | none => drawCell ai rng i)
    none

/-- All board cells of the knowledge base's grid. -/
def MinesweeperAI.allCells (ai : MinesweeperAI) : Finset Cell :=
  (Finset.range ai.height ×ˢ Finset.range ai.width).image
    (fun p => ((p.1 : Int), (p.2 : Int)))

/-- Predicate for a scanned coordinate that ends up in the new
sentence's cell set: not the clue cell, not a known safe, not a known
mine, and in bounds (lines 349-358). -/
def keepB (ai : MinesweeperAI) (cell p : Cell) : Bool :=
  !decide (p = cell ∨ p ∈ ai.safes) && !decide (p ∈ ai.mines) && ai.inB p

/-- Predicate for a scanned coordinate that decrements the clue count: not
the clue cell, not a known safe, and a known mine (lines 351-355); the
source applies no bounds check on this branch. -/
def decB (ai : MinesweeperAI) (cell p : Cell) : Bool :=
  !decide (p = cell ∨ p ∈ ai.safes) && decide (p ∈ ai.mines)

/-- The eight neighbours of a cell (the scanned coordinates minus the
cell itself), as a finite set. -/
def nbr8 (c : Cell) : Finset Cell :=
  (nbrCoords c).toFinset.erase c

/-- One public knowledge-base operation: a clue, a knowledge-base-level
safe mark, or a knowledge-base-level mine mark. -/
inductive KBOp where
  | clue (cell : Cell) (count : Int)
  | msafe (cell : Cell)
  | mmine (cell : Cell)
deriving DecidableEq

/-- Apply one public operation to the knowledge base. -/
def applyOp (ai : MinesweeperAI) : KBOp → MinesweeperAI
  | .clue c n => ai.add_knowledge c n
  | .msafe c => ai.mark_safe c
  | .mmine c => ai.mark_mine c

/-- Apply a sequence of public operations in order. -/
def applyOps (ai : MinesweeperAI) (ops : List KBOp) : MinesweeperAI :=
  ops.foldl applyOp ai

/-- A sequence of clues only, as consumed by repeated `add_knowledge`. -/
def applyClues (ai : MinesweeperAI) (clues : List (Cell × Int)) : MinesweeperAI :=
  clues.foldl (fun a p => a.add_knowledge p.1 p.2) ai

/-- Validity of one operation with respect to a ground-truth mine set
`M`: a clue reports a non-mine cell with the exact number of its eight
neighbours that are mines, a safe mark concerns a non-mine, a mine mark
concerns a mine. -/
def opValidB (M : Finset Cell) : KBOp → Bool
  | .clue c n => !decide (c ∈ M) && decide (n = ((nbr8 c ∩ M).card : Int))
  | .msafe c => !decide (c ∈ M)
  | .mmine c => decide (c ∈ M)

/-- The ground truth `M` fits the board bounds of the knowledge base. -/
def boundedMines (ai : MinesweeperAI) (M : Finset Cell) : Prop :=
  ∀ c ∈ M, ai.inB c = true

/-- Consistency of a knowledge-base state with a ground-truth mine set
`M`: no known safe is a mine, every known mine is a mine, and every
sentence's count is exactly the number of its cells that are mines. -/
structure Consistent (M : Finset Cell) (ai : MinesweeperAI) : Prop where
  safes_disj : ∀ c ∈ ai.safes, c ∉ M
  mines_sub : ai.mines ⊆ M
  sent_ok : ∀ s ∈ ai.knowledge, s.count = ((s.cells ∩ M).card : Int)

/-- The count invariant claimed by the specification for every stored
sentence. -/
def countInvariant (ai : MinesweeperAI) : Prop :=
  ∀ s ∈ ai.knowledge, 0 ≤ s.count ∧ s.count ≤ (s.cells.card : Int)

/-- Cells that `mace4_move` may legally return: on the board, not yet
probed, not a known mine. -/
def MinesweeperAI.randomCandidates (ai : MinesweeperAI) : Finset Cell :=
  (ai.allCells \ ai.moves_made) \ ai.mines

/-- Knowledge base reached by the clue sequence `(0,2) count 1` then
`(0,0) count 0` on a 1 by 5 board; after `add_knowledge` returns, its
last elimination product `{(0,3)} = 1` is decisive but unextracted. -/
def aiFix : MinesweeperAI :=
  ((initAI 1 5).add_knowledge (0, 2) 1).add_knowledge (0, 0) 0

/-- Knowledge base reached by the contradictory clue sequence
`(0,0) count 3` then `(1,1) count 0` on a 2 by 2 board. -/
def aiContra : MinesweeperAI :=
  ((initAI 2 2).add_knowledge (0, 0) 3).add_knowledge (1, 1) 0

/-- Knowledge base reached by the contradictory clue sequence
`(0,0) count 0` then `(0,2) count 1` on a 1 by 3 board; it stores the
sentence `{} = 1`. -/
def aiNegSent : MinesweeperAI :=
  ((initAI 1 3).add_knowledge (0, 0) 0).add_knowledge (0, 2) 1

/-- A 1 by 2 board with only `(0,0)` probed: the single unprobed cell
`(0,1)` is available to the random move chooser. -/
def aiOneFree : MinesweeperAI :=
  ⟨1, 2, 0, {((0 : Int), (0 : Int))}, ∅, ∅, []⟩

/-- A random stream that always draws `(0,0)`. -/
def rngZero : Nat → Nat × Nat := fun _ => (0, 0)

/-- A 2 by 2 board knowing two unprobed safe cells, giving
`mace4_wrapper` a choice between them. -/
def aiTwoSafe : MinesweeperAI :=
  ⟨2, 2, 0, ∅, ∅, {((0 : Int), (0 : Int)), ((0 : Int), (1 : Int))}, []⟩

/-- A 1 by 1 board whose only cell is already probed: no random move is
available. -/
def aiExhausted : MinesweeperAI :=
  ⟨1, 1, 0, {((0 : Int), (0 : Int))}, ∅, ∅, []⟩

/-- The two sentences of the specification's subset-elimination example. -/
def sentA : Sentence :=
  ⟨{((0 : Int), (0 : Int)), ((0 : Int), (1 : Int))}, 1⟩

/-- Superset sentence of the specification's subset-elimination example. -/
def sentB : Sentence :=
  ⟨{((0 : Int), (0 : Int)), ((0 : Int), (1 : Int)), ((0 : Int), (2 : Int))}, 2⟩

/-- Two distinct sentences over the same cell set, which the elimination
sweep skips. -/
def sentEq0 : Sentence := ⟨{((0 : Int), (0 : Int))}, 0⟩

/-- Companion of `sentEq0` with a different count. -/
def sentEq1 : Sentence := ⟨{((0 : Int), (0 : Int))}, 1⟩

/-! ### Generic fold helpers -/

theorem mem_cellSort {s : Finset Cell} {c : Cell} :
    c ∈ cellSort s ↔ c ∈ s := by
  show c ∈ Multiset.foldr insCell [] s.val ↔ c ∈ s.val
  induction s.val using Multiset.induction_on with
  | empty => simp
  | cons a t ih =>
      rw [Multiset.foldr_cons]
      simp only [insCell, List.mem_orderedInsert, Multiset.mem_cons, ih]

theorem cellSort_toFinset (s : Finset Cell) : (cellSort s).toFinset = s := by
  ext y
  rw [List.mem_toFinset, mem_cellSort]

theorem foldl_preserve {α : Type _} {β : Type _} (P : α → Prop) (f : α → β → α)
    (l : List β) (a : α) (h0 : P a)
    (hstep : ∀ x ∈ l, ∀ b, P b → P (f b x)) : P (l.foldl f a) := by
  induction l generalizing a with
  | nil => exact h0
  | cons x xs ih =>
      exact ih (f a x) (hstep x (by simp) a h0)
        (fun y hy b hb => hstep y (by simp [hy]) b hb)

/-! ### Field facts for the knowledge-base operations -/

theorem mark_safe_fields (ai : MinesweeperAI) (c : Cell) :
    (ai.mark_safe c).height = ai.height ∧ (ai.mark_safe c).width = ai.width ∧
    (ai.mark_safe c).moves_made = ai.moves_made ∧
    (ai.mark_safe c).safes = insert c ai.safes ∧
    (ai.mark_safe c).mines = ai.mines ∧
    (ai.mark_safe c).knowledge = ai.knowledge.map (fun s => s.mark_safe c) := by
  simp [MinesweeperAI.mark_safe]

theorem mark_mine_fields (ai : MinesweeperAI) (c : Cell) :
    (ai.mark_mine c).height = ai.height ∧ (ai.mark_mine c).width = ai.width ∧
    (ai.mark_mine c).moves_made = ai.moves_made ∧
    (ai.mark_mine c).safes = ai.safes ∧
    (ai.mark_mine c).mines = insert c ai.mines ∧
    (ai.mark_mine c).knowledge = ai.knowledge.map (fun s => s.mark_mine c) := by
  simp [MinesweeperAI.mark_mine]

theorem markSafeFold (l : List Cell) (ai : MinesweeperAI) :
    let r := l.foldl MinesweeperAI.mark_safe ai
    r.height = ai.height ∧ r.width = ai.width ∧
    r.moves_made = ai.moves_made ∧
    r.safes = ai.safes ∪ l.toFinset ∧
    r.mines = ai.mines ∧
    r.knowledge.length = ai.knowledge.length := by
  induction l generalizing ai with
  | nil => simp
  | cons x xs ih =>
      have h := ih (ai.mark_safe x)
      simp only [List.foldl_cons] at h ⊢
      simp only [MinesweeperAI.mark_safe] at h ⊢
      refine ⟨h.1, h.2.1, h.2.2.1, ?_, h.2.2.2.2.1, by simpa using h.2.2.2.2.2⟩
      rw [h.2.2.2.1]
      simp only [List.toFinset_cons]
      ext y
      simp only [Finset.mem_union, Finset.mem_insert, List.mem_toFinset]
      tauto

theorem markMineFold (l : List Cell) (ai : MinesweeperAI) :
    let r := l.foldl MinesweeperAI.mark_mine ai
    r.height = ai.height ∧ r.width = ai.width ∧
    r.moves_made = ai.moves_made ∧
    r.safes = ai.safes ∧
    r.mines = ai.mines ∪ l.toFinset ∧
    r.knowledge.length = ai.knowledge.length := by
  induction l generalizing ai with
  | nil => simp
  | cons x xs ih =>
      have h := ih (ai.mark_mine x)
      simp only [List.foldl_cons] at h ⊢
      simp only [MinesweeperAI.mark_mine] at h ⊢
      refine ⟨h.1, h.2.1, h.2.2.1, h.2.2.2.1, ?_, by simpa using h.2.2.2.2.2⟩
      rw [h.2.2.2.2.1]
      simp only [List.toFinset_cons]
      ext y
      simp only [Finset.mem_union, Finset.mem_insert, List.mem_toFinset]
      tauto

theorem extractPhase_fields (ai : MinesweeperAI) :
    (ai.extractPhase).height = ai.height ∧ (ai.extractPhase).width = ai.width ∧
    (ai.extractPhase).moves_made = ai.moves_made ∧
    (ai.extractPhase).safes = ai.safes ∪ (collectSafes ai.knowledge) ∧
    (ai.extractPhase).mines = ai.mines ∪ (collectMines ai.knowledge) ∧
    (ai.extractPhase).knowledge.length = ai.knowledge.length := by
  unfold MinesweeperAI.extractPhase
  have h1 := markSafeFold (cellSort (collectSafes ai.knowledge)) ai
  have h2 := markMineFold (cellSort (collectMines ai.knowledge))
    ((cellSort (collectSafes ai.knowledge)).foldl MinesweeperAI.mark_safe ai)
  simp only at h1 h2
  have hset : ∀ s : Finset Cell, (cellSort s).toFinset = s := cellSort_toFinset
  refine ⟨by rw [h2.1, h1.1], by rw [h2.2.1, h1.2.1],
          by rw [h2.2.2.1, h1.2.2.1], ?_, ?_,
          by rw [h2.2.2.2.2.2, h1.2.2.2.2.2]⟩
  · rw [h2.2.2.2.1, h1.2.2.2.1, hset]
  · rw [h2.2.2.2.2.1, h1.2.2.2.2.1, hset]

theorem elimStep_length (ks : List Sentence) (i j : Nat) :
    (elimStep ks i j).length = ks.length := by
  unfold elimStep
  cases h1 : ks.get? i with
  | none => simp
  | some s1 =>
      cases h2 : ks.get? j with
      | none => simp
      | some s2 =>
          by_cases hc : s1.cells = s2.cells
          · simp [hc]
          · by_cases hsub : s1.cells ⊆ s2.cells <;> simp [hc, hsub]

theorem subsetElimPass_length (ks : List Sentence) :
    (subsetElimPass ks).length = ks.length := by
  unfold subsetElimPass
  refine foldl_preserve (fun l => l.length = ks.length)
    (fun acc i => (List.range ks.length).foldl (fun acc2 j => elimStep acc2 i j) acc)
    (List.range ks.length) ks rfl ?_
  intro i _ acc hacc
  refine foldl_preserve (fun l => l.length = ks.length)
    (fun acc2 j => elimStep acc2 i j) (List.range ks.length) acc hacc ?_
  intro j _ acc2 hacc2
  rw [elimStep_length]
  exact hacc2

/-! ### The neighbour scan -/

theorem clueScan_spec (ai : MinesweeperAI) (cell : Cell) (l : List Cell)
    (s : Finset Cell) (k : Int) :
    l.foldl (clueStep ai cell) (s, k) =
      (s ∪ (l.filter (keepB ai cell)).toFinset,
       k - ((l.countP (decB ai cell) : Nat) : Int)) := by
  induction l generalizing s k with
  | nil => simp
  | cons p t ih =>
      simp only [List.foldl_cons, List.filter_cons, List.countP_cons]
      by_cases h1 : p = cell ∨ p ∈ ai.safes
      · have hk : keepB ai cell p = false := by
          simp [keepB, h1]
        have hd : decB ai cell p = false := by
          simp [decB, h1]
        simp only [clueStep, if_pos h1, hk, hd, ih]
        simp
      · by_cases h2 : p ∈ ai.mines
        · have hk : keepB ai cell p = false := by
            simp [keepB, h2]
          have hd : decB ai cell p = true := by
            simp [decB, h1, h2]
          simp only [clueStep, if_neg h1, if_pos h2, hk, hd, ih]
          refine Prod.ext rfl ?_
          simp only
          push_cast
          ring
        · by_cases h3 : ai.inB p
          · have hk : keepB ai cell p = true := by
              simp [keepB, h1, h2, h3]
            have hd : decB ai cell p = false := by
              simp [decB, h1, h2]
            simp only [clueStep, if_neg h1, if_neg h2, if_pos h3, hk, hd, ih]
            simp [List.toFinset_cons, Finset.union_insert]
          · have hk : keepB ai cell p = false := by
              simp [keepB, h3]
            have hd : decB ai cell p = false := by
              simp [decB, h1, h2]
            simp only [clueStep, if_neg h1, if_neg h2, if_neg h3, hk, hd, ih]
            simp

theorem insertPhase_fields (ai : MinesweeperAI) (cell : Cell) (n : Int) :
    (ai.insertPhase cell n).height = ai.height ∧
    (ai.insertPhase cell n).width = ai.width ∧
    (ai.insertPhase cell n).moves_made = insert cell ai.moves_made ∧
    (ai.insertPhase cell n).safes = insert cell ai.safes ∧
    (ai.insertPhase cell n).mines = ai.mines ∧
    (ai.insertPhase cell n).knowledge =
      ai.knowledge.map (fun s => s.mark_safe cell) ++
        [⟨((nbrCoords cell).filter
             (keepB { ai with safes := insert cell ai.safes } cell)).toFinset,
          n - (((nbrCoords cell).countP
             (decB { ai with safes := insert cell ai.safes } cell) : Nat) : Int)⟩] := by
  refine ⟨rfl, rfl, rfl, rfl, rfl, ?_⟩
  show (MinesweeperAI.insertPhase ai cell n).knowledge = _
  unfold MinesweeperAI.insertPhase
  simp only [MinesweeperAI.mark_safe]
  rw [clueScan_spec]
  simp only [Finset.empty_union]
  rfl

/-! ### Elimination sweep lemmas -/

theorem elimStep_expand {ks : List Sentence} {i j : Nat} {A B : Sentence}
    (hi : ks.get? i = some A) (hj : ks.get? j = some B) :
    elimStep ks i j =
      if A.cells = B.cells then ks
      else if A.cells ⊆ B.cells then
        ks.set j ⟨B.cells \ A.cells, B.count - A.count⟩
      else ks := by
  unfold elimStep
  rw [hi, hj]

theorem elimStep_skip_eq {ks : List Sentence} {i j : Nat} {A B : Sentence}
    (hi : ks.get? i = some A) (hj : ks.get? j = some B)
    (hc : A.cells = B.cells) : elimStep ks i j = ks := by
  rw [elimStep_expand hi hj, if_pos hc]

theorem elimStep_skip_nsub {ks : List Sentence} {i j : Nat} {A B : Sentence}
    (hi : ks.get? i = some A) (hj : ks.get? j = some B)
    (hc : A.cells ≠ B.cells) (hs : ¬ A.cells ⊆ B.cells) :
    elimStep ks i j = ks := by
  rw [elimStep_expand hi hj, if_neg hc, if_neg hs]

theorem elimStep_replaces {ks : List Sentence} {i j : Nat} {A B : Sentence}
    (hi : ks.get? i = some A) (hj : ks.get? j = some B)
    (hc : A.cells ≠ B.cells) (hs : A.cells ⊆ B.cells) :
    elimStep ks i j = ks.set j ⟨B.cells \ A.cells, B.count - A.count⟩ := by
  rw [elimStep_expand hi hj, if_neg hc, if_pos hs]

theorem elimStep_oob {ks : List Sentence} {i j : Nat}
    (h : ks.get? i = none ∨ ks.get? j = none) : elimStep ks i j = ks := by
  unfold elimStep
  rcases h with h | h
  · rw [h]
  · rw [h]
    cases ks.get? i <;> rfl

theorem mem_of_mem_elimStep {ks : List Sentence} {i j : Nat} {s : Sentence}
    (h : s ∈ elimStep ks i j) :
    s ∈ ks ∨ ∃ s1 ∈ ks, ∃ s2 ∈ ks, s1.cells ≠ s2.cells ∧ s1.cells ⊆ s2.cells ∧
      s = ⟨s2.cells \ s1.cells, s2.count - s1.count⟩ := by
  cases h1 : ks.get? i with
  | none => rw [elimStep_oob (Or.inl h1)] at h; exact Or.inl h
  | some s1 =>
      cases h2 : ks.get? j with
      | none => rw [elimStep_oob (Or.inr h2)] at h; exact Or.inl h
      | some s2 =>
          by_cases hc : s1.cells = s2.cells
          · rw [elimStep_skip_eq h1 h2 hc] at h; exact Or.inl h
          · by_cases hs : s1.cells ⊆ s2.cells
            · rw [elimStep_replaces h1 h2 hc hs] at h
              rcases List.mem_or_eq_of_mem_set h with hmem | heq
              · exact Or.inl hmem
              · exact Or.inr ⟨s1, List.get?_mem h1, s2, List.get?_mem h2, hc, hs, heq⟩
            · rw [elimStep_skip_nsub h1 h2 hc hs] at h; exact Or.inl h

theorem subsetElimPass_pres (P : Sentence → Prop)
    (hP : ∀ s1 s2 : Sentence, P s1 → P s2 → s1.cells ≠ s2.cells →
      s1.cells ⊆ s2.cells → P ⟨s2.cells \ s1.cells, s2.count - s1.count⟩)
    (ks : List Sentence) (h : ∀ s ∈ ks, P s) :
    ∀ s ∈ subsetElimPass ks, P s := by
  unfold subsetElimPass
  refine foldl_preserve (fun l => ∀ s ∈ l, P s)
    (fun acc i => (List.range ks.length).foldl (fun acc2 j => elimStep acc2 i j) acc)
    (List.range ks.length) ks h ?_
  intro i _ acc hacc
  refine foldl_preserve (fun l => ∀ s ∈ l, P s)
    (fun acc2 j => elimStep acc2 i j) (List.range ks.length) acc hacc ?_
  intro j _ acc2 hacc2 s hs
  rcases mem_of_mem_elimStep hs with hmem | ⟨s1, h1, s2, h2, hc, hsub, rfl⟩
  · exact hacc2 s hmem
  · exact hP s1 s2 (hacc2 s1 h1) (hacc2 s2 h2) hc hsub

/-! ### Collected safes and mines -/

theorem mem_foldl_union {f : Sentence → Finset Cell} {ks : List Sentence}
    {acc : Finset Cell} {c : Cell} :
    c ∈ ks.foldl (fun a s => a ∪ f s) acc ↔ c ∈ acc ∨ ∃ s ∈ ks, c ∈ f s := by
  induction ks generalizing acc with
  | nil => simp
  | cons s t ih =>
      simp only [List.foldl_cons, ih, Finset.mem_union, List.mem_cons]
      constructor
      · rintro (⟨h | h⟩ | ⟨s', hs', hc⟩)
        · exact Or.inl h
        · exact Or.inr ⟨s, Or.inl rfl, h⟩
        · exact Or.inr ⟨s', Or.inr hs', hc⟩
      · rintro (h | ⟨s', hs' | hs', hc⟩)
        · exact Or.inl (Or.inl h)
        · subst hs'; exact Or.inl (Or.inr hc)
        · exact Or.inr ⟨s', hs', hc⟩

theorem mem_collectSafes {ks : List Sentence} {c : Cell} :
    c ∈ collectSafes ks ↔ ∃ s ∈ ks, c ∈ s.known_safes := by
  unfold collectSafes
  rw [mem_foldl_union]
  simp

theorem mem_collectMines {ks : List Sentence} {c : Cell} :
    c ∈ collectMines ks ↔ ∃ s ∈ ks, c ∈ s.known_mines := by
  unfold collectMines
  rw [mem_foldl_union]
  simp

/-! ### Field facts for `add_knowledge` -/

theorem add_knowledge_fields (ai : MinesweeperAI) (cell : Cell) (n : Int) :
    (ai.add_knowledge cell n).height = ai.height ∧
    (ai.add_knowledge cell n).width = ai.width ∧
    (ai.add_knowledge cell n).moves_made = insert cell ai.moves_made ∧
    (ai.add_knowledge cell n).safes =
      insert cell ai.safes ∪ collectSafes ((ai.insertPhase cell n).knowledge) ∧
    (ai.add_knowledge cell n).mines =
      ai.mines ∪ collectMines ((ai.insertPhase cell n).knowledge) ∧
    (ai.add_knowledge cell n).knowledge.length = ai.knowledge.length + 1 := by
  have hi := insertPhase_fields ai cell n
  have he := extractPhase_fields (ai.insertPhase cell n)
  unfold MinesweeperAI.add_knowledge
  simp only
  refine ⟨?_, ?_, ?_, ?_, ?_, ?_⟩
  · rw [he.1, hi.1]
  · rw [he.2.1, hi.2.1]
  · rw [he.2.2.1, hi.2.2.1]
  · rw [he.2.2.2.1, hi.2.2.2.1]
  · rw [he.2.2.2.2.1, hi.2.2.2.2.1]
  · rw [subsetElimPass_length, he.2.2.2.2.2, hi.2.2.2.2.2]
    simp

/-! ### Finset form of the scan results -/

theorem nbrCoords_nodup (c : Cell) : (nbrCoords c).Nodup := by
  simp [nbrCoords, Prod.ext_iff]
  omega

theorem keep_toFinset (ai : MinesweeperAI) (cell : Cell) :
    ((nbrCoords cell).filter (keepB ai cell)).toFinset =
      (nbr8 cell).filter
        (fun p => p ∉ ai.safes ∧ p ∉ ai.mines ∧ ai.inB p = true) := by
  ext p
  simp only [List.mem_toFinset, List.mem_filter, keepB, nbr8, Finset.mem_filter,
    Finset.mem_erase, Bool.and_eq_true, Bool.not_eq_true', decide_eq_false_iff_not,
    decide_eq_true_eq, not_or]
  tauto

theorem dec_countP (ai : MinesweeperAI) (cell : Cell) :
    (nbrCoords cell).countP (decB ai cell) =
      ((nbr8 cell).filter (fun p => p ∉ ai.safes ∧ p ∈ ai.mines)).card := by
  rw [List.countP_eq_length_filter]
  have hnd : ((nbrCoords cell).filter (decB ai cell)).Nodup :=
    (nbrCoords_nodup cell).filter _
  rw [← List.toFinset_card_of_nodup hnd]
  congr 1
  ext p
  simp only [List.mem_toFinset, List.mem_filter, decB, nbr8, Finset.mem_filter,
    Finset.mem_erase, Bool.and_eq_true, Bool.not_eq_true', decide_eq_false_iff_not,
    decide_eq_true_eq, not_or]
  tauto

/-! ### Consistency with a ground truth -/

theorem sent_ok_mark_safe {M : Finset Cell} {s : Sentence}
    (hs : s.count = ((s.cells ∩ M).card : Int)) {c : Cell} (hc : c ∉ M) :
    (s.mark_safe c).count = (((s.mark_safe c).cells ∩ M).card : Int) := by
  unfold Sentence.mark_safe
  by_cases hmem : c ∈ s.cells
  · rw [if_pos hmem]
    have : s.cells.erase c ∩ M = s.cells ∩ M := by
      ext x
      simp only [Finset.mem_inter, Finset.mem_erase]
      constructor
      · rintro ⟨⟨-, hx⟩, hxM⟩; exact ⟨hx, hxM⟩
      · rintro ⟨hx, hxM⟩
        exact ⟨⟨fun he => hc (he ▸ hxM), hx⟩, hxM⟩
    simpa [this] using hs
  · rwa [if_neg hmem]

theorem sent_ok_mark_mine {M : Finset Cell} {s : Sentence}
    (hs : s.count = ((s.cells ∩ M).card : Int)) {c : Cell} (hc : c ∈ M) :
    (s.mark_mine c).count = (((s.mark_mine c).cells ∩ M).card : Int) := by
  unfold Sentence.mark_mine
  by_cases hmem : c ∈ s.cells
  · rw [if_pos hmem]
    have hEq : s.cells.erase c ∩ M = (s.cells ∩ M).erase c := by
      ext x
      simp only [Finset.mem_inter, Finset.mem_erase]
      tauto
    have hcM : c ∈ s.cells ∩ M := Finset.mem_inter.mpr ⟨hmem, hc⟩
    have hpos : 1 ≤ (s.cells ∩ M).card := Finset.card_pos.mpr ⟨c, hcM⟩
    simp only [hEq, Finset.card_erase_of_mem hcM]
    rw [hs]
    push_cast [Nat.cast_sub hpos]
    ring
  · rwa [if_neg hmem]

theorem consistent_mark_safe {M : Finset Cell} {ai : MinesweeperAI}
    (h : Consistent M ai) {c : Cell} (hc : c ∉ M) :
    Consistent M (ai.mark_safe c) := by
  refine ⟨?_, ?_, ?_⟩
  · rw [(mark_safe_fields ai c).2.2.2.1]
    intro x hx
    rcases Finset.mem_insert.mp hx with rfl | hx
    · exact hc
    · exact h.safes_disj x hx
  · rw [(mark_safe_fields ai c).2.2.2.2.1]
    exact h.mines_sub
  · rw [(mark_safe_fields ai c).2.2.2.2.2]
    intro s hs
    rcases List.mem_map.mp hs with ⟨s0, hs0, rfl⟩
    exact sent_ok_mark_safe (h.sent_ok s0 hs0) hc

theorem consistent_mark_mine {M : Finset Cell} {ai : MinesweeperAI}
    (h : Consistent M ai) {c : Cell} (hc : c ∈ M) :
    Consistent M (ai.mark_mine c) := by
  refine ⟨?_, ?_, ?_⟩
  · rw [(mark_mine_fields ai c).2.2.2.1]
    exact h.safes_disj
  · rw [(mark_mine_fields ai c).2.2.2.2.1]
    intro x hx
    rcases Finset.mem_insert.mp hx with rfl | hx
    · exact hc
    · exact h.mines_sub hx
  · rw [(mark_mine_fields ai c).2.2.2.2.2]
    intro s hs
    rcases List.mem_map.mp hs with ⟨s0, hs0, rfl⟩
    exact sent_ok_mark_mine (h.sent_ok s0 hs0) hc

theorem collectSafes_not_mine {M : Finset Cell} {ai : MinesweeperAI}
    (h : Consistent M ai) {c : Cell} (hc : c ∈ collectSafes ai.knowledge) :
    c ∉ M := by
  rcases mem_collectSafes.mp hc with ⟨s, hs, hcs⟩
  unfold Sentence.known_safes at hcs
  by_cases h0 : s.count = 0
  · rw [if_pos h0] at hcs
    have hok := h.sent_ok s hs
    rw [h0] at hok
    have hempty : s.cells ∩ M = ∅ := by
      have : (s.cells ∩ M).card = 0 := by exact_mod_cast hok.symm
      exact Finset.card_eq_zero.mp this
    intro hcM
    have : c ∈ s.cells ∩ M := Finset.mem_inter.mpr ⟨hcs, hcM⟩
    rw [hempty] at this
    exact absurd this (Finset.not_mem_empty c)
  · rw [if_neg h0] at hcs
    exact absurd hcs (Finset.not_mem_empty c)

theorem collectMines_mine {M : Finset Cell} {ai : MinesweeperAI}
    (h : Consistent M ai) {c : Cell} (hc : c ∈ collectMines ai.knowledge) :
    c ∈ M := by
  rcases mem_collectMines.mp hc with ⟨s, hs, hcs⟩
  unfold Sentence.known_mines at hcs
  by_cases h0 : (s.cells.card : Int) = s.count ∧ s.count ≠ 0
  · rw [if_pos h0] at hcs
    have hok := h.sent_ok s hs
    have hcard : (s.cells ∩ M).card = s.cells.card := by
      have := h0.1.trans hok
      exact_mod_cast this.symm
    have hfull : s.cells ∩ M = s.cells :=
      Finset.eq_of_subset_of_card_le Finset.inter_subset_left (le_of_eq hcard.symm)
    have : c ∈ s.cells ∩ M := hfull.symm ▸ hcs
    exact (Finset.mem_inter.mp this).2
  · rw [if_neg h0] at hcs
    exact absurd hcs (Finset.not_mem_empty c)

theorem consistent_extractPhase {M : Finset Cell} {ai : MinesweeperAI}
    (h : Consistent M ai) : Consistent M ai.extractPhase := by
  unfold MinesweeperAI.extractPhase
  simp only
  have h1 : Consistent M
      ((cellSort (collectSafes ai.knowledge)).foldl MinesweeperAI.mark_safe ai) := by
    refine foldl_preserve (Consistent M) MinesweeperAI.mark_safe _ ai h ?_
    intro x hx b hb
    have hxS : x ∈ collectSafes ai.knowledge := mem_cellSort.mp hx
    exact consistent_mark_safe hb (collectSafes_not_mine h hxS)
  refine foldl_preserve (Consistent M) MinesweeperAI.mark_mine _ _ h1 ?_
  intro x hx b hb
  have hxM : x ∈ collectMines ai.knowledge := mem_cellSort.mp hx
  exact consistent_mark_mine hb (collectMines_mine h hxM)

theorem newSentence_count_ok {M mines2 safes2 N8 : Finset Cell} {bnd : Cell → Bool}
    {n : Int} (hn : n = ((N8 ∩ M).card : Int))
    (hdisj : ∀ x ∈ safes2, x ∉ M) (hsub : mines2 ⊆ M)
    (hbM : ∀ x ∈ M, bnd x = true) :
    n - ((N8.filter (fun p => p ∉ safes2 ∧ p ∈ mines2)).card : Int) =
      (((N8.filter (fun p => p ∉ safes2 ∧ p ∉ mines2 ∧ bnd p = true)) ∩ M).card
        : Int) := by
  have h1 : N8.filter (fun p => p ∉ safes2 ∧ p ∈ mines2) = N8 ∩ mines2 := by
    ext p
    simp only [Finset.mem_filter, Finset.mem_inter]
    constructor
    · rintro ⟨hp, -, hm⟩; exact ⟨hp, hm⟩
    · rintro ⟨hp, hm⟩
      exact ⟨hp, fun hps => hdisj p hps (hsub hm), hm⟩
  have h2 : (N8.filter (fun p => p ∉ safes2 ∧ p ∉ mines2 ∧ bnd p = true)) ∩ M =
      (N8 ∩ M) \ (N8 ∩ mines2) := by
    ext p
    simp only [Finset.mem_filter, Finset.mem_inter, Finset.mem_sdiff]
    constructor
    · rintro ⟨⟨hp, -, hm, -⟩, hpM⟩
      exact ⟨⟨hp, hpM⟩, fun hx => hm hx.2⟩
    · rintro ⟨⟨hp, hpM⟩, hm⟩
      exact ⟨⟨hp, fun hps => hdisj p hps hpM,
        fun hmn => hm ⟨hp, hmn⟩, hbM p hpM⟩, hpM⟩
  have h3 : N8 ∩ mines2 ⊆ N8 ∩ M :=
    Finset.inter_subset_inter (le_refl N8) hsub
  rw [h1, h2, Finset.card_sdiff h3, hn]
  have hle : (N8 ∩ mines2).card ≤ (N8 ∩ M).card := Finset.card_le_card h3
  push_cast [Nat.cast_sub hle]
  ring

theorem consistent_insertPhase {M : Finset Cell} {ai : MinesweeperAI}
    (h : Consistent M ai) {cell : Cell} {n : Int} (hc : cell ∉ M)
    (hn : n = (((nbr8 cell) ∩ M).card : Int))
    (hbM : ∀ x ∈ M, ai.inB x = true) :
    Consistent M (ai.insertPhase cell n) := by
  have hf := insertPhase_fields ai cell n
  set ai2 : MinesweeperAI := { ai with safes := insert cell ai.safes } with hai2
  have hdisj2 : ∀ x ∈ ai2.safes, x ∉ M := by
    intro x hx
    rcases Finset.mem_insert.mp hx with rfl | hx
    · exact hc
    · exact h.safes_disj x hx
  refine ⟨?_, ?_, ?_⟩
  · rw [hf.2.2.2.1]
    exact hdisj2
  · rw [hf.2.2.2.2.1]
    exact h.mines_sub
  · rw [hf.2.2.2.2.2]
    intro s hs
    rcases List.mem_append.mp hs with hs | hs
    · rcases List.mem_map.mp hs with ⟨s0, hs0, rfl⟩
      exact sent_ok_mark_safe (h.sent_ok s0 hs0) hc
    · rcases List.mem_singleton.mp hs with rfl
      simp only
      rw [keep_toFinset, dec_countP]
      exact newSentence_count_ok hn hdisj2 h.mines_sub hbM

theorem consistent_elim {M : Finset Cell} {ai : MinesweeperAI}
    (h : Consistent M ai) :
    Consistent M { ai with knowledge := subsetElimPass ai.knowledge } := by
  refine ⟨h.safes_disj, h.mines_sub, ?_⟩
  intro s hs
  refine subsetElimPass_pres (fun s => s.count = ((s.cells ∩ M).card : Int)) ?_
    ai.knowledge h.sent_ok s hs
  intro s1 s2 h1 h2 _ hsub
  simp only
  have hEq : (s2.cells \ s1.cells) ∩ M = (s2.cells ∩ M) \ (s1.cells ∩ M) := by
    ext p
    simp only [Finset.mem_inter, Finset.mem_sdiff]
    constructor
    · rintro ⟨⟨hp, hnp⟩, hpM⟩
      exact ⟨⟨hp, hpM⟩, fun hx => hnp hx.1⟩
    · rintro ⟨⟨hp, hpM⟩, hnp⟩
      exact ⟨⟨hp, fun hx => hnp ⟨hx, hpM⟩⟩, hpM⟩
  have hsub2 : s1.cells ∩ M ⊆ s2.cells ∩ M :=
    Finset.inter_subset_inter hsub (le_refl M)
  rw [h1, h2, hEq, Finset.card_sdiff hsub2]
  have hle : (s1.cells ∩ M).card ≤ (s2.cells ∩ M).card := Finset.card_le_card hsub2
  push_cast [Nat.cast_sub hle]
  ring

theorem consistent_add_knowledge {M : Finset Cell} {ai : MinesweeperAI}
    (h : Consistent M ai) {cell : Cell} {n : Int} (hc : cell ∉ M)
    (hn : n = (((nbr8 cell) ∩ M).card : Int))
    (hbM : ∀ x ∈ M, ai.inB x = true) :
    Consistent M (ai.add_knowledge cell n) := by
  unfold MinesweeperAI.add_knowledge
  exact consistent_elim (consistent_extractPhase (consistent_insertPhase h hc hn hbM))

theorem applyOp_dims (ai : MinesweeperAI) (op : KBOp) :
    (applyOp ai op).height = ai.height ∧ (applyOp ai op).width = ai.width := by
  cases op with
  | clue c n =>
      exact ⟨(add_knowledge_fields ai c n).1, (add_knowledge_fields ai c n).2.1⟩
  | msafe c => exact ⟨rfl, rfl⟩
  | mmine c => exact ⟨rfl, rfl⟩

theorem inB_dims {ai b : MinesweeperAI} (hh : b.height = ai.height)
    (hw : b.width = ai.width) (x : Cell) : b.inB x = ai.inB x := by
  simp [MinesweeperAI.inB, hh, hw]

theorem consistent_applyOps {M : Finset Cell} {ai : MinesweeperAI}
    (h : Consistent M ai) (hbM : ∀ x ∈ M, ai.inB x = true)
    (ops : List KBOp) (hv : ∀ op ∈ ops, opValidB M op = true) :
    Consistent M (applyOps ai ops) := by
  unfold applyOps
  have : (fun b => Consistent M b ∧ (∀ x ∈ M, b.inB x = true))
      (ops.foldl applyOp ai) := by
    refine foldl_preserve
      (fun b => Consistent M b ∧ (∀ x ∈ M, b.inB x = true))
      applyOp ops ai ⟨h, hbM⟩ ?_
    intro op hop b hb
    have hdims := applyOp_dims b op
    constructor
    · have hvo := hv op hop
      cases op with
      | clue c n =>
          simp only [opValidB, Bool.and_eq_true, Bool.not_eq_true',
            decide_eq_false_iff_not, decide_eq_true_eq] at hvo
          exact consistent_add_knowledge hb.1 hvo.1 hvo.2 hb.2
      | msafe c =>
          simp only [opValidB, Bool.not_eq_true', decide_eq_false_iff_not] at hvo
          exact consistent_mark_safe hb.1 hvo
      | mmine c =>
          simp only [opValidB, decide_eq_true_eq] at hvo
          exact consistent_mark_mine hb.1 hvo
    · intro x hx
      rw [inB_dims hdims.1 hdims.2]
      exact hb.2 x hx
  exact this.1

/-! ### Move selection helpers -/

theorem mem_allCells {ai : MinesweeperAI} {c : Cell} :
    c ∈ ai.allCells ↔
      0 ≤ c.1 ∧ c.1 < (ai.height : Int) ∧ 0 ≤ c.2 ∧ c.2 < (ai.width : Int) := by
  unfold MinesweeperAI.allCells
  simp only [Finset.mem_image, Finset.mem_product, Finset.mem_range, Prod.exists]
  constructor
  · rintro ⟨a, b, ⟨ha, hb⟩, rfl⟩
    simp only
    omega
  · rintro ⟨h1, h2, h3, h4⟩
    refine ⟨c.1.toNat, c.2.toNat, ⟨by omega, by omega⟩, ?_⟩
    rw [Int.toNat_of_nonneg h1, Int.toNat_of_nonneg h3]

theorem firstDraw_stays {g : Nat → Option Cell} {l : List Nat} {m : Cell} :
    l.foldl (fun acc i => match acc with | some c => some c | none => g i)
      (some m) = some m := by
  induction l with
  | nil => rfl
  | cons i t ih => simpa using ih

theorem firstDraw_some {g : Nat → Option Cell} {l : List Nat} {c : Cell}
    (h : l.foldl (fun acc i => match acc with | some c => some c | none => g i)
      none = some c) : ∃ i ∈ l, g i = some c := by
  induction l with
  | nil => simp at h
  | cons i t ih =>
      simp only [List.foldl_cons] at h
      cases hg : g i with
      | none =>
          rw [hg] at h
          rcases ih h with ⟨j, hj, hgj⟩
          exact ⟨j, by simp [hj], hgj⟩
      | some m =>
          rw [hg, firstDraw_stays] at h
          exact ⟨i, by simp, hg.trans h⟩

theorem firstDraw_none {g : Nat → Option Cell} {l : List Nat}
    (h : ∀ i ∈ l, g i = none) :
    l.foldl (fun acc i => match acc with | some c => some c | none => g i)
      none = none := by
  induction l with
  | nil => rfl
  | cons i t ih =>
      simp only [List.foldl_cons, h i (by simp)]
      exact ih (fun j hj => h j (by simp [hj]))

theorem drawCell_mem {ai : MinesweeperAI} {rng : Nat → Nat × Nat} {i : Nat}
    {c : Cell} (hh : 0 < ai.height) (hw : 0 < ai.width)
    (h : drawCell ai rng i = some c) : c ∈ ai.randomCandidates := by
  simp only [drawCell] at h
  split_ifs at h with hcond
  · cases h
    unfold MinesweeperAI.randomCandidates
    simp only [Finset.mem_sdiff]
    refine ⟨⟨mem_allCells.mpr ?_, hcond.1⟩, hcond.2⟩
    have h1 : (rng i).1 % ai.height < ai.height := Nat.mod_lt _ hh
    have h2 : (rng i).2 % ai.width < ai.width := Nat.mod_lt _ hw
    simp only
    omega

theorem drawCell_none {ai : MinesweeperAI} {rng : Nat → Nat × Nat} {i : Nat}
    (hh : 0 < ai.height) (hw : 0 < ai.width)
    (hempty : ai.randomCandidates = ∅) : drawCell ai rng i = none := by
  simp only [drawCell]
  rw [if_neg]
  intro hcond
  have hmem : ((((rng i).1 % ai.height : Nat) : Int),
      (((rng i).2 % ai.width : Nat) : Int)) ∈ ai.randomCandidates := by
    unfold MinesweeperAI.randomCandidates
    simp only [Finset.mem_sdiff]
    refine ⟨⟨mem_allCells.mpr ?_, hcond.1⟩, hcond.2⟩
    have h1 : (rng i).1 % ai.height < ai.height := Nat.mod_lt _ hh
    have h2 : (rng i).2 % ai.width < ai.width := Nat.mod_lt _ hw
    simp only
    omega
  rw [hempty] at hmem
  exact absurd hmem (Finset.not_mem_empty _)

theorem length_cellSort (s : Finset Cell) : (cellSort s).length = s.card := by
  show (Multiset.foldr insCell [] s.val).length = Multiset.card s.val
  induction s.val using Multiset.induction_on with
  | empty => rfl
  | cons a t ih =>
      rw [Multiset.foldr_cons, Multiset.card_cons]
      simp only [insCell, List.orderedInsert_length, ih]

theorem wrapper_mem {ai : MinesweeperAI} {r : Nat} (h : ai.safeMoves.Nonempty) :
    ∃ c, (ai.mace4_wrapper r).2 = some c ∧ c ∈ ai.safeMoves := by
  have hcard : 0 < ai.safeMoves.card := Finset.card_pos.mpr h
  have hlen : (cellSort ai.safeMoves).length = ai.safeMoves.card :=
    length_cellSort _
  have hpos : 0 < (cellSort ai.safeMoves).length := by omega
  have hlt : r % (cellSort ai.safeMoves).length < (cellSort ai.safeMoves).length :=
    Nat.mod_lt _ hpos
  refine ⟨(cellSort ai.safeMoves).get ⟨r % (cellSort ai.safeMoves).length, hlt⟩,
    ?_, ?_⟩
  · exact List.get?_eq_get hlt
  · exact mem_cellSort.mp (List.get_mem _ _ _)

theorem wrapper_none {ai : MinesweeperAI} {r : Nat} (h : ai.safeMoves = ∅) :
    (ai.mace4_wrapper r).2 = none := by
  simp only [MinesweeperAI.mace4_wrapper]
  have hsm : ({ ai with step := ai.step + 1 } : MinesweeperAI).safeMoves = ∅ := h
  rw [hsm]
  rfl

theorem consistent_init (h w : Nat) (M : Finset Cell) :
    Consistent M (initAI h w) := by
  refine ⟨?_, ?_, ?_⟩
  · intro c hc
    exact absurd hc (Finset.not_mem_empty c)
  · exact Finset.empty_subset M
  · intro s hs
    exact absurd hs (List.not_mem_nil s)

/-! ### Claim theorems -/

/-- Claim C1 (amended): `add_knowledge` runs a single propagation pass,
not a loop to fixpoint; every cell collected by that pass's trivial
extraction over the knowledge list as it stood after sentence insertion
is marked in the returned state, but the subsequent elimination sweep may
leave decisive sentences whose cells are not yet marked. -/
theorem add_knowledge_single_pass_marks :
    ∀ (ai : MinesweeperAI) (cell : Cell) (n : Int),
    collectSafes ((ai.insertPhase cell n).knowledge) ⊆
      (ai.add_knowledge cell n).safes ∧
    collectMines ((ai.insertPhase cell n).knowledge) ⊆
      (ai.add_knowledge cell n).mines := by
  intro ai cell n
  have hf := add_knowledge_fields ai cell n
  constructor
  · rw [hf.2.2.2.1]
    exact Finset.subset_union_right
  · rw [hf.2.2.2.2.1]
    exact Finset.subset_union_right

/-- Claim C1, counterexample: after the clue sequence `(0,2) ↦ 1` then
`(0,0) ↦ 0` on a 1 by 5 board, the stored sentence `{(0,3)} = 1` reports
`(0,3)` as a known mine, yet `(0,3)` is not in `mines`: one further
extraction pass would produce a new known-mine cell, so the state
`add_knowledge` returns is not a propagation fixpoint. -/
theorem add_knowledge_not_fixpoint_example :
    ((0 : Int), (3 : Int)) ∈ collectMines aiFix.knowledge ∧
    ((0 : Int), (3 : Int)) ∉ aiFix.mines := by decide

/-- Claim C2 (amended): the code defines no `InconsistentKnowledge`
fault; every operation is total and contradictory clues are absorbed
silently (see the counterexample, where a cell ends up in both `safes`
and `mines`).  Disjointness of `safes` and `mines` does hold on every
state reachable by operations that are truthful for some ground-truth
mine set within the board bounds. -/
theorem truthful_ops_safes_mines_disjoint :
    ∀ (h w : Nat) (M : Finset Cell) (ops : List KBOp),
    (∀ c ∈ M, (initAI h w).inB c = true) →
    (∀ op ∈ ops, opValidB M op = true) →
    (applyOps (initAI h w) ops).safes ∩ (applyOps (initAI h w) ops).mines = ∅ := by
  intro h w M ops hb hv
  have hcons : Consistent M (applyOps (initAI h w) ops) :=
    consistent_applyOps (consistent_init h w M) hb ops hv
  ext x
  simp only [Finset.mem_inter, Finset.not_mem_empty, iff_false, not_and]
  intro hs hm
  exact hcons.safes_disj x hs (hcons.mines_sub hm)

/-- Claim C2, witness for the amended theorem at a concrete truthful
sequence on a 2 by 2 board with the single mine `(1,1)`. -/
theorem truthful_ops_safes_mines_disjoint_witness :
    (applyOps (initAI 2 2) [KBOp.clue (0, 0) 1, KBOp.mmine (1, 1)]).safes ∩
      (applyOps (initAI 2 2) [KBOp.clue (0, 0) 1, KBOp.mmine (1, 1)]).mines =
      ∅ :=
  truthful_ops_safes_mines_disjoint 2 2 {((1 : Int), (1 : Int))}
    [KBOp.clue (0, 0) 1, KBOp.mmine (1, 1)] (by decide) (by decide)

/-- Claim C2, counterexample: the contradictory clue sequence
`(0,0) ↦ 3` then `(1,1) ↦ 0` on a 2 by 2 board leaves `(1,1)` in both
`safes` and `mines`; no fault is raised, the cell is silently held on
both sides. -/
theorem contradictory_clues_overlap_example :
    aiContra.safes ∩ aiContra.mines = {((1 : Int), (1 : Int))} := by decide

/-- Claim C3 (amended): `0 ≤ count ≤ |cells|` holds for every stored
sentence after every sequence of public operations that is truthful for
some ground-truth mine set within the board bounds (each clue reports a
non-mine cell with its exact neighbour mine count, marks agree with the
ground truth); contradictory input can break the bound, as the
counterexample shows. -/
theorem truthful_ops_count_invariant :
    ∀ (h w : Nat) (M : Finset Cell) (ops : List KBOp),
    (∀ c ∈ M, (initAI h w).inB c = true) →
    (∀ op ∈ ops, opValidB M op = true) →
    countInvariant (applyOps (initAI h w) ops) := by
  intro h w M ops hb hv
  have hcons : Consistent M (applyOps (initAI h w) ops) :=
    consistent_applyOps (consistent_init h w M) hb ops hv
  intro s hs
  rw [hcons.sent_ok s hs]
  constructor
  · exact Int.natCast_nonneg _
  · exact_mod_cast Finset.card_le_card
      (Finset.inter_subset_left : s.cells ∩ M ⊆ s.cells)

/-- Claim C3, witness for the amended theorem at a concrete truthful
sequence on a 2 by 2 board with the single mine `(1,1)`. -/
theorem truthful_ops_count_invariant_witness :
    countInvariant
      (applyOps (initAI 2 2)
        [KBOp.clue (0, 0) 1, KBOp.mmine (1, 1), KBOp.msafe (0, 1)]) :=
  truthful_ops_count_invariant 2 2 {((1 : Int), (1 : Int))}
    [KBOp.clue (0, 0) 1, KBOp.mmine (1, 1), KBOp.msafe (0, 1)]
    (by decide) (by decide)

/-- Claim C3, counterexample: after the clue sequence `(0,0) ↦ 0` then
`(0,2) ↦ 1` on a 1 by 3 board the knowledge base stores the sentence
`{} = 1`, whose count exceeds its cardinality, so the invariant does not
hold after arbitrary operation sequences. -/
theorem count_invariant_violation_example : ¬ countInvariant aiNegSent := by
  unfold countInvariant
  decide

/-- Claim C4 (amended): for every ordered pair of sentences at distinct
positions whose cell sets differ and with the first's cells a subset of
the second's, the elimination step replaces the second by the set
difference with the count difference; pairs with equal cell sets are
skipped even when their counts differ (see counterexample).  On the
specification's example pair the full sweep turns `B` into
`{(0,2)} = 1`. -/
theorem subset_elimination_replaces :
    (∀ (ks : List Sentence) (i j : Nat) (A B : Sentence),
        ks.get? i = some A → ks.get? j = some B → A.cells ≠ B.cells →
        A.cells ⊆ B.cells →
        elimStep ks i j = ks.set j ⟨B.cells \ A.cells, B.count - A.count⟩) ∧
    subsetElimPass [sentA, sentB] = [sentA, ⟨{((0 : Int), (2 : Int))}, 1⟩] :=
  ⟨fun _ks _i _j _A _B hi hj hc hs => elimStep_replaces hi hj hc hs, by decide⟩

/-- Claim C4, witness: the general replacement applied to the
specification's example pair at positions 0 and 1. -/
theorem subset_elimination_replaces_witness :
    elimStep [sentA, sentB] 0 1 =
      [sentA, sentB].set 1
        ⟨sentB.cells \ sentA.cells, sentB.count - sentA.count⟩ :=
  subset_elimination_replaces.1 [sentA, sentB] 0 1 sentA sentB rfl rfl
    (by decide) (by decide)

/-- Claim C4, counterexample: the sentences `{(0,0)} = 0` and
`{(0,0)} = 1` are distinct, the first's cells are a non-empty subset of
the second's, yet the sweep changes nothing because the source skips
every pair with equal cell sets; the claim instead requires the second
to become `{} = 1`. -/
theorem equal_cells_not_eliminated_example :
    sentEq0 ≠ sentEq1 ∧ sentEq0.cells ⊆ sentEq1.cells ∧
    sentEq0.cells.Nonempty ∧
    subsetElimPass [sentEq0, sentEq1] = [sentEq0, sentEq1] := by decide

/-- Claim C5 (amended): the insertion step of `add_knowledge` adds the
cell to `moves_made`, marks it safe in every existing sentence and in
`safes`, and appends exactly one sentence whose cells are the eight
neighbours that are not in the updated `safes`, not in `mines` and in
bounds, and whose count is the clue count decremented once for each of
the eight neighbours that is in `mines` and not in the updated `safes`
(the source checks membership in `mines` before any bounds test).
The propagation that follows inside the same `add_knowledge` call may
simplify the appended sentence before the call returns (see
counterexample). -/
theorem clue_sentence_construction :
    ∀ (ai : MinesweeperAI) (cell : Cell) (n : Int),
    (ai.insertPhase cell n).moves_made = insert cell ai.moves_made ∧
    (ai.insertPhase cell n).safes = insert cell ai.safes ∧
    (ai.insertPhase cell n).mines = ai.mines ∧
    (ai.insertPhase cell n).knowledge =
      ai.knowledge.map (fun s => s.mark_safe cell) ++
        [⟨(nbr8 cell).filter
            (fun p => p ∉ insert cell ai.safes ∧ p ∉ ai.mines ∧
              ai.inB p = true),
          n - (((nbr8 cell).filter
            (fun p => p ∉ insert cell ai.safes ∧ p ∈ ai.mines)).card : Int)⟩] := by
  intro ai cell n
  have hf := insertPhase_fields ai cell n
  refine ⟨hf.2.2.1, hf.2.2.2.1, hf.2.2.2.2.1, ?_⟩
  rw [hf.2.2.2.2.2, keep_toFinset, dec_countP]
  rfl

/-- Claim C5, counterexample: on a fresh 1 by 2 board the clue
`(0,0) ↦ 0` appends the sentence `{(0,1)} = 0`, but the propagation
inside the same `add_knowledge` call empties it before returning, so the
returned knowledge base does not contain the sentence the claim
describes. -/
theorem appended_sentence_simplified_example :
    ((initAI 1 2).add_knowledge (0, 0) 0).knowledge = [⟨∅, 0⟩] ∧
    (⟨∅, 0⟩ : Sentence).cells ≠ ({((0 : Int), (1 : Int))} : Finset Cell) := by
  decide

/-- Claim C6: `known_mines` contains exactly the sentence's cells when
the count equals the cardinality and is non-zero and is empty otherwise,
`known_safes` contains exactly the cells when the count is zero and is
empty otherwise; in particular the empty sentence with count zero
reports no mines and no safes. -/
theorem known_mines_safes_spec :
    ∀ s : Sentence,
    (∀ c : Cell, c ∈ s.known_mines ↔
      c ∈ s.cells ∧ (s.cells.card : Int) = s.count ∧ s.count ≠ 0) ∧
    (∀ c : Cell, c ∈ s.known_safes ↔ c ∈ s.cells ∧ s.count = 0) ∧
    Sentence.known_mines ⟨∅, 0⟩ = ∅ ∧ Sentence.known_safes ⟨∅, 0⟩ = ∅ := by
  intro s
  refine ⟨?_, ?_, by decide, by decide⟩
  · intro c
    unfold Sentence.known_mines
    split_ifs with h
    · exact ⟨fun hc => ⟨hc, h⟩, fun hc => hc.1⟩
    · simp only [Finset.not_mem_empty, false_iff, not_and]
      intro hc hcard hne
      exact h ⟨hcard, hne⟩
  · intro c
    unfold Sentence.known_safes
    split_ifs with h
    · exact ⟨fun hc => ⟨hc, h⟩, fun hc => hc.1⟩
    · simp only [Finset.not_mem_empty, false_iff, not_and]
      intro hc h0
      exact h h0

/-- Claim C7 (amended): on a board with positive dimensions, whenever
`mace4_move` returns a cell it lies in
`allCells − moves_made − mines`, and when that candidate set is empty it
returns no move; but with an unlucky random stream it can also return no
move while the candidate set is non-empty, because it gives up after 63
draws (see counterexample). -/
theorem mace4_move_spec :
    ∀ (ai : MinesweeperAI) (rng : Nat → Nat × Nat),
    0 < ai.height → 0 < ai.width →
    (∀ c : Cell, ai.mace4_move rng = some c → c ∈ ai.randomCandidates) ∧
    (ai.randomCandidates = ∅ → ai.mace4_move rng = none) := by
  intro ai rng hh hw
  constructor
  · intro c hc
    unfold MinesweeperAI.mace4_move at hc
    rcases firstDraw_some hc with ⟨i, -, hg⟩
    exact drawCell_mem hh hw hg
  · intro hempty
    unfold MinesweeperAI.mace4_move
    exact firstDraw_none (fun i _ => drawCell_none hh hw hempty)

/-- Claim C7, witness: on a 1 by 1 board whose only cell is probed the
candidate set is empty and `mace4_move` returns no move. -/
theorem mace4_move_spec_witness : aiExhausted.mace4_move rngZero = none :=
  (mace4_move_spec aiExhausted rngZero (by decide) (by decide)).2 (by decide)

/-- Claim C7, counterexample: on a 1 by 2 board with `(0,0)` probed the
candidate set `{(0,1)}` is non-empty, yet a random stream that always
draws `(0,0)` exhausts all 63 attempts and `mace4_move` returns no
move, contradicting the claim that a move is returned whenever the set
is non-empty. -/
theorem mace4_move_misses_example :
    aiOneFree.randomCandidates = {((0 : Int), (1 : Int))} ∧
    aiOneFree.mace4_move rngZero = none := by decide

/-- Claim C8 (amended): the safe-move selection of `mace4_wrapper`
returns a member of `safes − moves_made` whenever that set is non-empty
and no move otherwise; the choice is made by `random.choice`, so which
member is returned depends on the ambient randomness rather than on a
fixed lowest-row-column tie-break (see counterexample). -/
theorem safe_move_selection_spec :
    ∀ (ai : MinesweeperAI) (r : Nat),
    (ai.safeMoves.Nonempty →
      ∃ c, (ai.mace4_wrapper r).2 = some c ∧ c ∈ ai.safeMoves) ∧
    (ai.safeMoves = ∅ → (ai.mace4_wrapper r).2 = none) :=
  fun _ai _r => ⟨wrapper_mem, wrapper_none⟩

/-- Claim C8, witness: on a knowledge base with two unprobed safe cells
the wrapper returns one of them. -/
theorem safe_move_selection_spec_witness :
    ∃ c, (aiTwoSafe.mace4_wrapper 0).2 = some c ∧ c ∈ aiTwoSafe.safeMoves :=
  (safe_move_selection_spec aiTwoSafe 0).1 (by decide)

/-- Claim C8, counterexample: two invocations on equal knowledge-base
states but different random draws return different cells, so the
selection is not deterministic and follows no fixed tie-break. -/
theorem safe_move_nondeterministic_example :
    (aiTwoSafe.mace4_wrapper 0).2 ≠ (aiTwoSafe.mace4_wrapper 1).2 := by decide

/-- Claim C9: `safes`, `mines` and `moves_made` grow monotonically under
every public knowledge-base operation, and move selection
(`mace4_wrapper`; `mace4_move` reads the state without changing it)
leaves all three sets unchanged. -/
theorem sets_monotone :
    ∀ (ai : MinesweeperAI) (op : KBOp) (r : Nat),
    (ai.safes ⊆ (applyOp ai op).safes ∧
     ai.mines ⊆ (applyOp ai op).mines ∧
     ai.moves_made ⊆ (applyOp ai op).moves_made) ∧
    ((ai.mace4_wrapper r).1.safes = ai.safes ∧
     (ai.mace4_wrapper r).1.mines = ai.mines ∧
     (ai.mace4_wrapper r).1.moves_made = ai.moves_made) := by
  intro ai op r
  refine ⟨?_, rfl, rfl, rfl⟩
  cases op with
  | clue c n =>
      have hf := add_knowledge_fields ai c n
      simp only [applyOp]
      refine ⟨?_, ?_, ?_⟩
      · rw [hf.2.2.2.1]
        intro x hx
        exact Finset.mem_union_left _ (Finset.mem_insert_of_mem hx)
      · rw [hf.2.2.2.2.1]
        exact Finset.subset_union_left
      · rw [hf.2.2.1]
        exact Finset.subset_insert _ _
  | msafe c =>
      exact ⟨Finset.subset_insert _ _, Finset.Subset.refl _, Finset.Subset.refl _⟩
  | mmine c =>
      exact ⟨Finset.Subset.refl _, Finset.subset_insert _ _, Finset.Subset.refl _⟩

/-- Claim C10: no operation ever removes a sentence: each
`add_knowledge` call appends exactly one sentence (empty ones are kept,
only mutated in place), the knowledge-base-level marks keep the list's
length, and after a sequence of clues from a fresh knowledge base the
list holds exactly one sentence per clue. -/
theorem knowledge_growth :
    ∀ (h w : Nat) (clues : List (Cell × Int)) (ai : MinesweeperAI) (c : Cell)
      (n : Int),
    (applyClues (initAI h w) clues).knowledge.length = clues.length ∧
    (ai.add_knowledge c n).knowledge.length = ai.knowledge.length + 1 ∧
    (ai.mark_safe c).knowledge.length = ai.knowledge.length ∧
    (ai.mark_mine c).knowledge.length = ai.knowledge.length := by
  intro h w clues ai c n
  refine ⟨?_, (add_knowledge_fields ai c n).2.2.2.2.2,
    by simp [MinesweeperAI.mark_safe], by simp [MinesweeperAI.mark_mine]⟩
  have hgen : ∀ (cl : List (Cell × Int)) (b : MinesweeperAI),
      (applyClues b cl).knowledge.length = b.knowledge.length + cl.length := by
    intro cl
    induction cl with
    | nil =>
        intro b
        simp [applyClues]
    | cons p t ih =>
        intro b
        unfold applyClues at ih ⊢
        simp only [List.foldl_cons]
        rw [ih, (add_knowledge_fields b p.1 p.2).2.2.2.2.2]
        simp only [List.length_cons]
        omega
  have h0 := hgen clues (initAI h w)
  simpa [initAI] using h0
